import Mathlib

/-!
Verification of the Sorted-Confluence-Converter conversion pipeline.

The development shallowly embeds the Python sources
(`confluence_converter/utils.py`, `confluence_converter/conversion.py`,
`converter.py`).  Text is modelled as `List Char`; Python `dict`s are
modelled as association lists preserving insertion order; the external
collaborators (HTML parser, Markdown renderer, hash function, wall clock)
are explicit function parameters.
-/

set_option autoImplicit false

/-- Abbreviation: a Python string, modelled as its list of characters. -/
abbrev Str := List Char

/-- Turn a Lean string literal into the `List Char` model. -/
def cs (s : String) : Str := s.toList

/-- Python `str.isspace` / the characters stripped by `str.strip()` and
matched by the regex class `\s` (CPython `Py_UNICODE_ISSPACE`). -/
def isPySpace (c : Char) : Bool :=
  c = ' ' || c = '\t' || c = '\n' || c = '\r' ||
  c = '\x0b' || c = '\x0c' ||
  c = '\x1c' || c = '\x1d' || c = '\x1e' || c = '\x1f' ||
  c = '\x85' || c = ' ' || c = ' ' ||
  (0x2000 ≤ c.toNat && c.toNat ≤ 0x200a) ||
  c = ' ' || c = ' ' || c = ' ' || c = ' ' || c = '　'

/-- Python `str.strip()`: drop leading and trailing whitespace. -/
def pyStrip (l : Str) : Str :=
  ((l.dropWhile isPySpace).reverse.dropWhile isPySpace).reverse

/-- `sep.join(parts)` for a single-character separator. -/
def joinWith (sep : Char) : List Str → Str
  | [] => []
  | [x] => x
  | x :: y :: rest => x ++ sep :: joinWith sep (y :: rest)

/-- Python `value.split(sep)` for a single-character separator:
`"".split(sep) = [""]`, and empty fields are kept. -/
def pySplit (sep : Char) : Str → List Str
  | [] => [[]]
  | c :: rest =>
    if c = sep then [] :: pySplit sep rest
    else
      match pySplit sep rest with
      | [] => [[c]]
      | a :: as => (c :: a) :: as

/-- Line-boundary characters of Python `str.splitlines` other than `'\r'`
(which is handled separately because of the `"\r\n"` pair). -/
def isLineBreakChar (c : Char) : Bool :=
  c = '\n' || c = '\x0b' || c = '\x0c' ||
  c = '\x1c' || c = '\x1d' || c = '\x1e' ||
  c = '\x85' || c = ' ' || c = ' '

/-- Worker for `pySplitlines`, carrying the current line reversed
(a `'\r'` directly followed by `'\n'` counts as a single line break). -/
def pySplitlinesAux (acc : Str) (l : Str) : List Str :=
  match l with
  | [] => if acc = [] then [] else [acc.reverse]
  | '\r' :: '\n' :: rest2 => acc.reverse :: pySplitlinesAux [] rest2
  | c :: rest =>
    if c = '\r' then acc.reverse :: pySplitlinesAux [] rest
    else if isLineBreakChar c then acc.reverse :: pySplitlinesAux [] rest
    else pySplitlinesAux (c :: acc) rest

/-- Python `str.splitlines()`. -/
def pySplitlines (l : Str) : List Str := pySplitlinesAux [] l

/-- Decimal digit rendered as a character. -/
def digitChar (d : Nat) : Char := Char.ofNat (48 + d)

/-- Fuel-indexed decimal rendering; `fuel > n` always suffices because the
recursion divides by `10` at each step. -/
def natCharsFuel : Nat → Nat → Str
  | 0, _ => []
  | fuel + 1, n =>
    if n < 10 then [digitChar n]
    else natCharsFuel fuel (n / 10) ++ [digitChar (n % 10)]

/-- Decimal rendering of a natural number (Python `str(n)` for `n ≥ 0`). -/
def natChars (n : Nat) : Str := natCharsFuel (n + 1) n

/-- Read a decimal digit string back; inverse of `natChars`. -/
def charsToNat (l : Str) : Nat :=
  l.foldl (fun a c => a * 10 + (c.toNat - 48)) 0

/-- Worker for the modelled slugifier: maximal alphanumeric runs of the
input, in order (non-alphanumeric characters act as separators). -/
def alnumGroups (cur : Str) (l : Str) : List Str :=
  match l with
  | [] => if cur = [] then [] else [cur.reverse]
  | c :: rest =>
    if c.isAlphanum then alnumGroups (c :: cur) rest
    else if cur = [] then alnumGroups [] rest
    else cur.reverse :: alnumGroups [] rest

/-- Modelled from the spec: the third-party `slugify` library used by
`utils.slugify_text` is not part of the repository.  Spec §4.6:
"Slugification: lowercase, non-alphanumeric runs replaced by the separator,
leading/trailing separators trimmed; empty input maps to the literal
`unnamed`" (the source applies `slugify` to `value or "unnamed"`). -/
def slugify_text (value : Str) : Str :=
  let v := if value = [] then cs "unnamed" else value
  joinWith '-' (alnumGroups [] (v.map Char.toLower))

/-- `utils.slugify_path`: slugify each non-empty component, join with `/`
(every call in the repository uses the separator `'-'`, the default). -/
def slugify_path (parts : List Str) : Str :=
  joinWith '/' ((parts.filter (· ≠ [])).map (fun p => slugify_text p))

/-- Helper: `dropWhile` never lengthens a list. -/
theorem length_dropWhile_le {α : Type} (p : α → Bool) (l : List α) :
    (l.dropWhile p).length ≤ l.length := by
  induction l with
  | nil => simp
  | cons c rest ih =>
    by_cases h : p c <;> simp [List.dropWhile_cons, h] <;> omega

/-- The characters of the lookbehind class `[.!?]` of
`utils._sentence_splitter`. -/
def isSentPunct (c : Char) : Bool := c = '.' || c = '!' || c = '?'

/-- The lookahead class `[A-Z0-9]` of `utils._sentence_splitter`. -/
def isUpperDigit (c : Char) : Bool := ('A' ≤ c && c ≤ 'Z') || c.isDigit

/-- Scanner for `re.split(r"(?<=[.!?])\s+(?=[A-Z0-9])", line)`: `prev` is the
character just before the scan position (for the lookbehind), `cur` the
current segment reversed.  A separator match must consume a maximal
whitespace run (backtracking inside the run always fails, because the
character after a shorter prefix of the run is whitespace, not `[A-Z0-9]`). -/
def sentGo (prev : Option Char) (cur : Str) (l : Str) : List Str :=
  match l with
  | [] => [cur.reverse]
  | c :: rest =>
    if prev.any isSentPunct && isPySpace c then
      match h : rest.dropWhile isPySpace with
      | [] => [((rest.takeWhile isPySpace).reverse ++ c :: cur).reverse]
      | d :: rest3 =>
        if isUpperDigit d then
          cur.reverse :: sentGo (some d) [d] rest3
        else
          sentGo (some d) (d :: ((rest.takeWhile isPySpace).reverse ++ c :: cur)) rest3
    else
      sentGo (some c) (c :: cur) rest
termination_by l.length
decreasing_by
  all_goals simp only [List.length_cons]
  · have h1 : (rest.dropWhile isPySpace).length ≤ rest.length :=
      length_dropWhile_le isPySpace rest
    rw [h] at h1
    simp only [List.length_cons] at h1
    omega
  · have h1 : (rest.dropWhile isPySpace).length ≤ rest.length :=
      length_dropWhile_le isPySpace rest
    rw [h] at h1
    simp only [List.length_cons] at h1
    omega
  · omega

/-- `utils._sentence_splitter.split(line)`. -/
def sentenceSplit (l : Str) : List Str := sentGo none [] l

/-- The list/bullet-marker test of `utils.split_into_sentences`:
`line.startswith(("-", "*", "+", ">")) or re.match(r"^\d+\.", line)`. -/
def isListMarkerLine (l : Str) : Bool :=
  match l with
  | [] => false
  | c :: rest =>
    c = '-' || c = '*' || c = '+' || c = '>' ||
    (c.isDigit && numTail rest)
where
  /-- After one digit: more digits, then a literal `'.'` must follow. -/
  numTail : Str → Bool
    | [] => false
    | c :: rest => if c.isDigit then numTail rest else c = '.'

/-- `utils.split_into_sentences`. -/
def split_into_sentences (text : Str) : List Str :=
  if text = [] then []
  else
    (pySplitlines (pyStrip text)).foldr
      (fun raw_line acc =>
        (let line := pyStrip raw_line
         if line = [] then []
         else if isListMarkerLine line then [line]
         else
           let sentences := ((sentenceSplit line).map pyStrip).filter (· ≠ [])
           if sentences ≠ [] then sentences else [line]) ++ acc)
      []

/-- Sum of `len(sentence) + 1` over the accumulator; tracks the source's
`current_len` variable. -/
def lenSum (l : List Str) : Nat := l.foldr (fun s a => s.length + 1 + a) 0

/-- Worker for `utils.chunk_sentences`: `current` is the accumulator list
(in order), `current_len` as in the source. -/
def chunkAux (target_chars max_chars : Nat) (sentences : List Str)
    (current : List Str) (current_len : Nat) : List Str :=
  match sentences with
  | [] => if current.isEmpty then [] else [pyStrip (joinWith '\n' current)]
  | s :: rest =>
    if !current.isEmpty && decide (max_chars < current_len + s.length + 1) then
      -- flush the accumulator first, then add the sentence and re-check
      pyStrip (joinWith '\n' current) ::
        (if target_chars ≤ s.length + 1 then
          pyStrip (joinWith '\n' [s]) :: chunkAux target_chars max_chars rest [] 0
        else chunkAux target_chars max_chars rest [s] (s.length + 1))
    else
      if target_chars ≤ current_len + s.length + 1 then
        pyStrip (joinWith '\n' (current ++ [s])) :: chunkAux target_chars max_chars rest [] 0
      else chunkAux target_chars max_chars rest (current ++ [s]) (current_len + s.length + 1)

/-- `utils.chunk_sentences`; the source's default arguments
`target_chars=2000`, `max_chars=3600` — the only values used in the
repository — are passed explicitly by the callers here. -/
def chunk_sentences (sentences : List Str) (target_chars : Nat)
    (max_chars : Nat) : List Str :=
  chunkAux target_chars max_chars sentences [] 0

/-! ## HTML tree model (`bs4` trees, as consumed by `conversion.py`) -/

/-- A parsed HTML node: an element with a tag and children, or a text node. -/
inductive Node where
  | elem (tag : Str) (children : List Node)
  | text (s : Str)

mutual

/-- All text-node strings below a node, in document order
(`bs4`'s `_all_strings`). -/
def nodeStrings : Node → List Str
  | .text s => [s]
  | .elem _ children => forestStrings children

/-- All text-node strings of a forest, in document order. -/
def forestStrings : List Node → List Str
  | [] => []
  | n :: rest => nodeStrings n ++ forestStrings rest

end

mutual

/-- All proper descendants of a node, in pre-order (document order);
the basis of `bs4`'s `find_all`/`find`. -/
def descendants : Node → List Node
  | .text _ => []
  | .elem _ children => forestNodes children

/-- All nodes of a forest, in pre-order (each node before its descendants). -/
def forestNodes : List Node → List Node
  | [] => []
  | n :: rest => n :: (descendants n ++ forestNodes rest)

end

/-- Does the node carry the given element tag? -/
def tagIs (t : Str) : Node → Bool
  | .elem tag _ => tag = t
  | .text _ => false

/-- `node.get_text(" ", strip=True)`: stripped text fragments, empties
dropped, joined with one space. -/
def getTextSpace (n : Node) : Str :=
  joinWith ' ' (((nodeStrings n).map pyStrip).filter (· ≠ []))

/-- `node.get_text(strip=True)`: stripped text fragments, empties dropped,
concatenated. -/
def getTextConcat (n : Node) : Str :=
  (((nodeStrings n).map pyStrip).filter (· ≠ [])).flatten

/-! ## `conversion.py`: HTML sanitizer -/

mutual

/-- Pass 1 of `_clean_html`: `tag.decompose()` for every `script`/`style`. -/
def stripScriptsNode : Node → List Node
  | .text s => [.text s]
  | .elem tag children =>
    if tag = cs "script" || tag = cs "style" then []
    else [.elem tag (stripScriptsForest children)]

/-- Pass 1 of `_clean_html` over a forest. -/
def stripScriptsForest : List Node → List Node
  | [] => []
  | n :: rest => stripScriptsNode n ++ stripScriptsForest rest

end

mutual

/-- Pass 2 of `_clean_html`: an element whose tag contains `':'` (a
Confluence macro) is replaced by its visible text, or dropped if that text
is empty. -/
def flattenMacrosNode : Node → List Node
  | .text s => [.text s]
  | .elem tag children =>
    if tag.contains ':' then
      let t := getTextSpace (.elem tag children)
      if t = [] then [] else [.text t]
    else [.elem tag (flattenMacrosForest children)]

/-- Pass 2 of `_clean_html` over a forest. -/
def flattenMacrosForest : List Node → List Node
  | [] => []
  | n :: rest => flattenMacrosNode n ++ flattenMacrosForest rest

end

mutual

/-- Pass 3 of `_clean_html`: `tag.unwrap()` for every `span`/`div`
(children promoted in place). -/
def unwrapNode : Node → List Node
  | .text s => [.text s]
  | .elem tag children =>
    if tag = cs "span" || tag = cs "div" then unwrapForest children
    else [.elem tag (unwrapForest children)]

/-- Pass 3 of `_clean_html` over a forest. -/
def unwrapForest : List Node → List Node
  | [] => []
  | n :: rest => unwrapNode n ++ unwrapForest rest

end

/-- `conversion._clean_html`, applied to an already-parsed tree (the
`BeautifulSoup` parser itself is an external collaborator). -/
def _clean_html (soup : List Node) : List Node :=
  unwrapForest (flattenMacrosForest (stripScriptsForest soup))

/-! ## `conversion.py`: table extraction -/

/-- A table cell value: a plain string, or a list after delimiter
splitting. -/
inductive CellValue where
  | str (s : Str)
  | vlist (l : List Str)
deriving DecidableEq

/-- Split on the delimiter, strip every part, keep the non-empty ones
(`[part.strip() for part in value.split(d) if part.strip()]`). -/
def splitTrim (sep : Char) (value : Str) : List Str :=
  ((pySplit sep value).map pyStrip).filter (· ≠ [])

/-- `conversion._maybe_split_list` on a string cell value. -/
def _maybe_split_list (value : Str) : CellValue :=
  if value.contains ';' && decide (1 < (splitTrim ';' value).length) then
    .vlist (splitTrim ';' value)
  else if value.contains ',' && decide (1 < (splitTrim ',' value).length) then
    .vlist (splitTrim ',' value)
  else .str value

/-- The dictionary produced by `_extract_table`. -/
structure TableData where
  columns : List Str
  display_columns : List Str
  rows : List (List (Str × CellValue))
deriving DecidableEq

/-- Python `dict` lookup on an insertion-ordered association list. -/
def dictGet {V : Type} (d : List (Str × V)) (k : Str) : Option V :=
  match d with
  | [] => none
  | (k', v') :: rest => if k' = k then some v' else dictGet rest k

/-- Python `dict` assignment: overwrite in place, or append a new key. -/
def dictInsert {V : Type} (d : List (Str × V)) (k : Str) (v : V) : List (Str × V) :=
  match d with
  | [] => [(k, v)]
  | (k', v') :: rest =>
    if k' = k then (k, v) :: rest else (k', v') :: dictInsert rest k v

/-- `mapping.setdefault(k, []).append(v)`. -/
def dictSetdefaultAppend {V : Type} (d : List (Str × List V)) (k : Str) (v : V) :
    List (Str × List V) :=
  match d with
  | [] => [(k, [v])]
  | (k', vs) :: rest =>
    if k' = k then (k', vs ++ [v]) :: rest else (k', vs) :: dictSetdefaultAppend rest k v

mutual

/-- Remove the first pre-order `tr` element among a node's descendants
(`first_row.extract()`); the Bool reports whether one was found. -/
def removeTrNode : Node → Node × Bool
  | .text s => (.text s, false)
  | .elem tag children =>
    let r := removeTrForest children
    (.elem tag r.1, r.2)

/-- Remove the first pre-order `tr` element from a forest. -/
def removeTrForest : List Node → List Node × Bool
  | [] => ([], false)
  | n :: rest =>
    if tagIs (cs "tr") n then (rest, true)
    else
      let rn := removeTrNode n
      if rn.2 then (rn.1 :: rest, true)
      else
        let rr := removeTrForest rest
        (n :: rr.1, rr.2)

end

/-- `first_row.extract()` applied below the table element. -/
def removeFirstTr (table : Node) : Node := (removeTrNode table).1

/-- Append `n` synthetic `Column N` headers, numbering from the current
header count (the body of the `while idx >= len(headers)` loop). -/
def padHeadersN : Nat → List Str × List Str → List Str × List Str
  | 0, hd => hd
  | n + 1, hd =>
    let fallback := cs "Column " ++ natChars (hd.1.length + 1)
    padHeadersN n (hd.1 ++ [slugify_text fallback], hd.2 ++ [fallback])

/-- The `while idx >= len(headers)` loop: headers grow until `idx` is in
range; each iteration adds one column, so it runs `idx + 1 - len` times. -/
def padHeaders (idx : Nat) (hd : List Str × List Str) : List Str × List Str :=
  padHeadersN (idx + 1 - hd.1.length) hd

/-- The header-building loop of `_extract_table`: slugified keys and
display names, with `Column N` fallbacks for empty header cells. -/
def buildHeaders : List Node → List Str × List Str → List Str × List Str
  | [], hd => hd
  | cell :: rest, (headers, display) =>
    let t0 := getTextSpace cell
    let t := if t0 = [] then cs "Column " ++ natChars (headers.length + 1) else t0
    buildHeaders rest (headers ++ [slugify_text t], display ++ [t])

/-- The per-row cell loop of `_extract_table`: headers are extended on the
fly and the row dictionary accumulates `key ↦ value`. -/
def procCells : List Node → Nat → List Str × List Str → List (Str × CellValue) →
    (List Str × List Str) × List (Str × CellValue)
  | [], _, hd, rd => (hd, rd)
  | cell :: rest, idx, hd, rd =>
    let hd1 := padHeaders idx hd
    let key := hd1.1.getD idx []
    let value := _maybe_split_list (getTextSpace cell)
    procCells rest (idx + 1) hd1 (dictInsert rd key value)

/-- The row loop of `_extract_table`: cell-less rows are skipped, rows with
an empty dictionary are dropped, the header lists are threaded through. -/
def procRows : List Node → List Str × List Str → List (List (Str × CellValue)) →
    (List Str × List Str) × List (List (Str × CellValue))
  | [], hd, acc => (hd, acc)
  | row :: rest, hd, acc =>
    let cells := (descendants row).filter (fun n => tagIs (cs "td") n || tagIs (cs "th") n)
    if cells.isEmpty then procRows rest hd acc
    else
      let (hd', rd) := procCells cells 0 hd []
      procRows rest hd' (acc ++ if rd.isEmpty then [] else [rd])

/-- `conversion._extract_table`. -/
def _extract_table (table : Node) : TableData :=
  let header_cells := (descendants table).filter (tagIs (cs "th"))
  let (header_cells, table) :=
    if header_cells.isEmpty then
      match ((descendants table).filter (tagIs (cs "tr"))).head? with
      | none => (header_cells, table)
      | some first_row =>
        let cells := (descendants first_row).filter (tagIs (cs "td"))
        if cells.isEmpty then (cells, table)
        else (cells, removeFirstTr table)
    else (header_cells, table)
  let hd := buildHeaders header_cells ([], [])
  let trs := (descendants table).filter (tagIs (cs "tr"))
  let (hd2, body_rows) := procRows trs hd []
  { columns := hd2.1, display_columns := hd2.2, rows := body_rows }

/-- Is the node an `h1`/`h2`/`h3` element (`HEADING_TAGS`)? -/
def isHeadingTag (n : Node) : Bool :=
  tagIs (cs "h1") n || tagIs (cs "h2") n || tagIs (cs "h3") n

/-- Worker for `_map_tables_to_sections`: walk all nodes in document order
carrying the most recent heading (`table.find_previous(HEADING_TAGS)`). -/
def mapTablesAux : List Node → Option Node → List (Str × List TableData) →
    List (Str × List TableData)
  | [], _, acc => acc
  | n :: rest, lastHeading, acc =>
    if isHeadingTag n then mapTablesAux rest (some n) acc
    else if tagIs (cs "table") n then
      let section_id :=
        match lastHeading with
        | some h =>
          if getTextConcat h ≠ [] then slugify_text (getTextConcat h) else cs "overview"
        | none => cs "overview"
      mapTablesAux rest lastHeading (dictSetdefaultAppend acc section_id (_extract_table n))
    else mapTablesAux rest lastHeading acc

/-- `conversion._map_tables_to_sections`. -/
def _map_tables_to_sections (soup : List Node) : List (Str × List TableData) :=
  mapTablesAux (forestNodes soup) none []

/-! ## `conversion.py`: section segmentation -/

/-- A section, as produced by `_split_sections` (the `table_json` field is
set later by `build_document`). -/
structure Section where
  id : Str
  title : Str
  body_md : Str
  anchors : List Str
  table_json : Option (List TableData)
deriving DecidableEq

/-- `re.match(r"^(#{1,3})\s+(.*)", line)`, returning group 2 on a match:
1–3 leading `#` (a run of 4 or more never matches), then at least one
whitespace character; group 2 is the rest after the whitespace run. -/
def headingMatch (line : Str) : Option Str :=
  let hashes := line.takeWhile (· = '#')
  let rest := line.drop hashes.length
  if 1 ≤ hashes.length && hashes.length ≤ 3 then
    match rest with
    | c :: _ => if isPySpace c then some (rest.dropWhile isPySpace) else none
    | [] => none
  else none

/-- `flush_section` of `_split_sections`. -/
def mkSection (title : Str) (lines : List Str) : Section :=
  let slug := slugify_text title
  { id := slug
    title := if pyStrip title = [] then cs "Untitled Section" else pyStrip title
    body_md := pyStrip (joinWith '\n' lines)
    anchors := [slug]
    table_json := none }

/-- The line loop of `_split_sections` (`acc` is `current_lines`; a heading
flushes only when `current_lines` is non-empty, and the final flush is
unconditional). -/
def splitSectionsAux : Str → List Str → List Str → List Section
  | title, acc, [] => [mkSection title acc]
  | title, acc, line :: rest =>
    match headingMatch line with
    | some h =>
      let heading := pyStrip h
      let newTitle := if heading = [] then cs "Untitled Section" else heading
      if acc.isEmpty then splitSectionsAux newTitle [] rest
      else mkSection title acc :: splitSectionsAux newTitle [] rest
    | none => splitSectionsAux title (acc ++ [line]) rest

/-- `conversion._split_sections`. -/
def _split_sections (markdown : Str) : List Section :=
  if pyStrip markdown = [] then
    [{ id := cs "overview", title := cs "Overview", body_md := [],
       anchors := [cs "overview"], table_json := none }]
  else splitSectionsAux (cs "Overview") [] (pySplitlines markdown)

/-! ## `conversion.py`: document and chunk assembly -/

/-- The `version` dictionary of a page record. -/
structure VersionInfo where
  number : Option Str
  whenAt : Option Str
deriving DecidableEq

/-- The `_links` dictionary of a page record. -/
structure PageLinks where
  webui : Option Str
deriving DecidableEq

/-- One entry of the `ancestors` list of a page record. -/
structure Ancestor where
  title : Option Str
deriving DecidableEq

/-- A Confluence page record, with optional fields for `dict.get`
fallbacks; `id` stores `str(page.get("id"))` when present. -/
structure Page where
  id : Option Str
  title : Option Str
  version : Option VersionInfo
  ancestors : Option (List Ancestor)
  body : Option Str
  links : Option PageLinks
deriving DecidableEq

/-- `str(page.get("id"))`: Python renders a missing key as `"None"`. -/
def pageIdStr (page : Page) : Str := page.id.getD (cs "None")

/-- `page.get("title", "Untitled Page")`. -/
def pageTitle (page : Page) : Str := page.title.getD (cs "Untitled Page")

/-- `[ancestor.get("title", "") for ancestor in page.get("ancestors", []) or []]`. -/
def ancestorTitles (page : Page) : List Str :=
  (page.ancestors.getD []).map (fun a => a.title.getD [])

/-- The document slug: `slugify_path(ancestor_titles + [title])`. -/
def docSlug (page : Page) : Str :=
  slugify_path (ancestorTitles page ++ [pageTitle page])

/-- `page_id[-4:].rjust(4, "0")`. -/
def last4 (s : Str) : Str :=
  let t := s.drop (s.length - 4)
  List.replicate (4 - t.length) '0' ++ t

/-- The document identifier `f"{space}-{slug.replace('/', '-')}-{last4}"`. -/
def docId (space : Str) (page : Page) : Str :=
  space ++ '-' :: ((docSlug page).map (fun c => if c = '/' then '-' else c)) ++
    '-' :: last4 (pageIdStr page)

/-- A chunk payload as built in `build_document`. -/
structure Chunk where
  chunk_id : Str
  section_id : Str
  rank : Nat
  text : Str
  keywords : List Str
  anchors : List Str
  text_hash : Str
deriving DecidableEq

/-- `f"{doc_id}::{section.id}#{rank}"`. -/
def mkChunkId (doc_id section_id : Str) (rank : Nat) : Str :=
  doc_id ++ ':' :: ':' :: section_id ++ '#' :: natChars rank

/-- Lexicographic code-point order on strings (Python `<` on `str`). -/
def strLt : Str → Str → Bool
  | [], [] => false
  | [], _ :: _ => true
  | _ :: _, [] => false
  | c :: as, d :: bs => if c = d then strLt as bs else decide (c.toNat < d.toNat)

/-- Insertion step of `sortStrs`. -/
def insertSorted (x : Str) : List Str → List Str
  | [] => [x]
  | y :: rest => if strLt x y then x :: y :: rest else y :: insertSorted x rest

/-- Insertion sort by `strLt` (Python `sorted` on strings). -/
def sortStrs : List Str → List Str
  | [] => []
  | x :: rest => insertSorted x (sortStrs rest)

/-- Worker for `dedupStrs`. -/
def dedupStrsAux (seen : List Str) : List Str → List Str
  | [] => []
  | x :: rest =>
    if seen.contains x then dedupStrsAux seen rest
    else x :: dedupStrsAux (seen ++ [x]) rest

/-- Remove duplicates, keeping first occurrences (Python `set` content). -/
def dedupStrs (l : List Str) : List Str := dedupStrsAux [] l

/-- `sorted(keywords)` for a section: the document keywords
`{slugify(title), space.lower(), space}` plus the slug of the section title
and the fixed `"sandbox"`/`"production"` tags. -/
def sectionKeywords (space title : Str) (sec : Section) : List Str :=
  sortStrs (dedupStrs
    [slugify_text title, space.map Char.toLower, space,
     slugify_text sec.title, cs "sandbox", cs "production"])

/-- Emit one chunk per text, with consecutive document-wide ranks. -/
def chunksFromTexts (doc_id : Str) (hash : Str → Str) (sec : Section)
    (keywords : List Str) (rank : Nat) : List Str → List Chunk
  | [] => []
  | t :: ts =>
    { chunk_id := mkChunkId doc_id sec.id rank
      section_id := sec.id
      rank := rank
      text := t
      keywords := keywords
      anchors := sec.anchors
      text_hash := hash t } :: chunksFromTexts doc_id hash sec keywords (rank + 1) ts

/-- The chunking pass of `build_document`: sections with blank bodies are
skipped; `rank` is a document-wide counter that is never reset. -/
def chunkLoop (doc_id : Str) (hash : Str → Str) (space title : Str) (rank : Nat) :
    List Section → List Chunk
  | [] => []
  | sec :: rest =>
    if pyStrip sec.body_md = [] then chunkLoop doc_id hash space title rank rest
    else
      let texts := chunk_sentences (split_into_sentences sec.body_md) 2000 3600
      chunksFromTexts doc_id hash sec (sectionKeywords space title sec) rank texts ++
        chunkLoop doc_id hash space title (rank + texts.length) rest

/-- `history[0].changed_at`: `version_when or imported_at` (Python `or`
treats an empty string as falsy). -/
def changedAt (version_when : Option Str) (imported_at : Str) : Str :=
  match version_when with
  | some w => if w = [] then imported_at else w
  | none => imported_at

/-- The `source` sub-record of the document. -/
structure SourceInfo where
  system : Str
  space : Str
  page_id : Str
  canonical_url : Option Str
  imported_at : Str
deriving DecidableEq

/-- One entry of the document `history` list. -/
structure HistoryEntry where
  version : Str
  changed_at : Str
  notes : Str
deriving DecidableEq

/-- A section as serialized into the document (`table_json` present only
when truthy). -/
structure SectionPayload where
  id : Str
  title : Str
  body_md : Str
  anchors : List Str
  table_json : Option (List TableData)
deriving DecidableEq

/-- An `owners` entry. -/
structure Owner where
  name : Str
deriving DecidableEq

/-- The `applicability` sub-record. -/
structure Applicability where
  environments : List Str
  customers : List Str
  carriers : List Str
deriving DecidableEq

/-- The `compliance` sub-record. -/
structure Compliance where
  pii : Bool
  confidential : Str
deriving DecidableEq

/-- The document record assembled by `build_document`. -/
structure Doc where
  id : Str
  slug : Str
  title : Str
  version : Str
  language : Str
  status : Str
  product : Option Str
  audience : List Str
  tags : List Str
  domain : List Str
  summary : Option Str
  source : SourceInfo
  owners : List Owner
  applicability : Applicability
  compliance : Compliance
  history : List HistoryEntry
  sections : List SectionPayload
  chunks : List Chunk
  related : List Str
deriving DecidableEq

/-- `conversion.build_document`.  The content hash (`hashlib.sha256`) and
the import timestamp (`datetime.now`) are external inputs, passed as the
`hash` and `imported_at` parameters. -/
def build_document (hash : Str → Str) (imported_at : Str) (page : Page)
    (markdown : Str) (sections : List Section)
    (table_mapping : List (Str × List TableData)) (space : Str) (base_url : Str) :
    Doc × List Chunk × List (Str × Str) :=
  let page_id := pageIdStr page
  let title := pageTitle page
  let version_info := page.version.getD { number := none, whenAt := none }
  let version_number := version_info.number.getD (cs "1")
  let version_when := version_info.whenAt
  let slug := docSlug page
  let doc_id := docId space page
  let webui := page.links.bind PageLinks.webui
  let canonical_url :=
    match webui with
    | some w => if w = [] then none else some (base_url ++ w)
    | none => none
  let sections1 := sections.map (fun sec =>
    match dictGet table_mapping sec.id with
    | some tables => if tables.isEmpty then sec else { sec with table_json := some tables }
    | none => sec)
  let sections_payload : List SectionPayload := sections1.map (fun sec =>
    { id := sec.id, title := sec.title, body_md := sec.body_md, anchors := sec.anchors,
      table_json :=
        match sec.table_json with
        | some ts => if ts.isEmpty then none else some ts
        | none => none })
  let chunks := chunkLoop doc_id hash space title 0 sections1
  let chunk_index := chunks.foldl (fun d c => dictInsert d c.chunk_id c.text_hash) []
  let doc : Doc := {
    id := doc_id
    slug := slug
    title := title
    version := version_number
    language := cs "en-GB"
    status := cs "published"
    product := none
    audience := [cs "internal-support"]
    tags := [slugify_text title, space]
    domain := [cs "sorted"]
    summary := none
    source := { system := cs "Confluence", space := space, page_id := page_id,
                canonical_url := canonical_url, imported_at := imported_at }
    owners := [{ name := cs "Support Ops" }]
    applicability := { environments := [cs "Sandbox", cs "Production"],
                       customers := [cs "*"], carriers := [cs "*"] }
    compliance := { pii := false, confidential := cs "internal" }
    history := [{ version := version_number,
                  changed_at := changedAt version_when imported_at,
                  notes := cs "Imported" }]
    sections := sections_payload
    chunks := chunks
    related := [] }
  (doc, chunks, chunk_index)

/-- `conversion.convert_page`.  The HTML parser (`BeautifulSoup`) and the
Markdown renderer (`markdownify` plus the newline-collapsing `re.sub` and
final `strip`) are external collaborators, passed as `parse` and `render`;
the theorems constrain them only where the spec pins their behaviour. -/
def convert_page (parse : Str → List Node) (render : List Node → Str)
    (hash : Str → Str) (imported_at : Str) (page : Page) (space base_url : Str) :
    Doc × List Chunk × List (Str × Str) :=
  let body := page.body.getD []
  let soup := _clean_html (parse body)
  let markdown := render soup
  let sections := _split_sections markdown
  let table_mapping := _map_tables_to_sections soup
  build_document hash imported_at page markdown sections table_mapping space base_url

/-! ## Claim C7: spec-worded sentence splitter -/

/-- Following the claim wording: the position right after the current
character is a split boundary when it carries whitespace followed by an
uppercase letter or digit. -/
def specBoundary (l : Str) : Bool :=
  match l.dropWhile isPySpace with
  | d :: _ => !(l.takeWhile isPySpace).isEmpty && isUpperDigit d
  | [] => false

/-- Sentence splitting as worded by the claim: a line is "split exactly at
positions where `.`, `!` or `?` is followed by whitespace and then an
uppercase letter or digit"; the separating whitespace run is dropped. -/
def specSplitSentence (cur : Str) (l : Str) : List Str :=
  match l with
  | [] => [cur.reverse]
  | c :: rest =>
    if isSentPunct c && specBoundary rest then
      (c :: cur).reverse :: specSplitSentence [] (rest.dropWhile isPySpace)
    else specSplitSentence (c :: cur) rest
termination_by l.length
decreasing_by
  all_goals simp only [List.length_cons]
  all_goals first
    | (have h9 := length_dropWhile_le isPySpace rest; omega)
    | omega

/-- The claim's reading of `utils.split_into_sentences`: process the
stripped text line by line; a blank line yields nothing; a line whose
stripped form starts with `-`, `*`, `+`, `>` or digits followed by `.` is
kept whole; any other line is split at the claim's boundary positions and
kept whole when no boundary exists. -/
def split_into_sentences_spec (text : Str) : List Str :=
  if text = [] then []
  else
    (pySplitlines (pyStrip text)).foldr
      (fun raw_line acc =>
        (let line := pyStrip raw_line
         if line = [] then []
         else if isListMarkerLine line then [line]
         else
           let sentences := ((specSplitSentence [] line).map pyStrip).filter (· ≠ [])
           if sentences ≠ [] then sentences else [line]) ++ acc)
      []

/-! ## `converter.py`: chunk-index diffing (`main`, lines 138–139) -/

/-- `sum(1 for cid, thash in chunk_index.items() if previous_index.get(cid) != thash)`. -/
def changed_chunks (previous_index chunk_index : List (Str × Str)) : Nat :=
  (chunk_index.filter (fun p => decide (dictGet previous_index p.1 ≠ some p.2))).length

/-- `len(set(previous_index.keys()) - set(chunk_index.keys()))`. -/
def removed_chunks (previous_index chunk_index : List (Str × Str)) : Nat :=
  (dedupStrs ((previous_index.map Prod.fst).filter
    (fun k => !(chunk_index.map Prod.fst).contains k))).length


/-! # Helper lemmas -/

theorem band_elim {a b : Bool} (h : (a && b) = true) : a = true ∧ b = true := by
  constructor <;> simp_all

theorem punct_not_space {c : Char} (h : isSentPunct c = true) : isPySpace c = false := by
  have h3 : c = '.' ∨ c = '!' ∨ c = '?' := by
    simpa [isSentPunct, or_assoc] using h
  rcases h3 with h3 | h3 | h3 <;> subst h3 <;> decide

theorem sentGo_nil (prev : Option Char) (cur : Str) :
    sentGo prev cur [] = [cur.reverse] := by
  rw [sentGo.eq_def]

theorem sentGo_cons_skip (prev : Option Char) (cur : Str) (c : Char) (rest : Str)
    (h : ¬(prev.any isSentPunct && isPySpace c) = true) :
    sentGo prev cur (c :: rest) = sentGo (some c) (c :: cur) rest := by
  rw [sentGo.eq_def]
  simp only [Bool.not_eq_true] at h
  simp only [h, Bool.false_eq_true, if_false]

theorem sentGo_cons_end (p : Char) (cur : Str) (c : Char) (rest : Str)
    (hp : isSentPunct p = true) (hc : isPySpace c = true)
    (hdrop : rest.dropWhile isPySpace = []) :
    sentGo (some p) cur (c :: rest) =
      [((rest.takeWhile isPySpace).reverse ++ c :: cur).reverse] := by
  rw [sentGo.eq_def]
  simp only [Option.any_some, hp, hc, Bool.and_self, if_true]
  split
  · rfl
  · next d' rest3' heq => rw [hdrop] at heq; cases heq

theorem sentGo_cons_match (p : Char) (cur : Str) (c : Char) (rest : Str)
    (d : Char) (rest3 : Str)
    (hp : isSentPunct p = true) (hc : isPySpace c = true)
    (hdrop : rest.dropWhile isPySpace = d :: rest3) (hd : isUpperDigit d = true) :
    sentGo (some p) cur (c :: rest) = cur.reverse :: sentGo (some d) [d] rest3 := by
  rw [sentGo.eq_def]
  simp only [Option.any_some, hp, hc, Bool.and_self, if_true]
  split
  · next heq => rw [hdrop] at heq; cases heq
  · next d' rest3' heq =>
    rw [hdrop] at heq
    injection heq with h1 h2
    subst h1; subst h2
    simp only [hd, if_true]

theorem sentGo_cons_nomatch (p : Char) (cur : Str) (c : Char) (rest : Str)
    (d : Char) (rest3 : Str)
    (hp : isSentPunct p = true) (hc : isPySpace c = true)
    (hdrop : rest.dropWhile isPySpace = d :: rest3) (hd : isUpperDigit d = false) :
    sentGo (some p) cur (c :: rest) =
      sentGo (some d) (d :: ((rest.takeWhile isPySpace).reverse ++ c :: cur)) rest3 := by
  rw [sentGo.eq_def]
  simp only [Option.any_some, hp, hc, Bool.and_self, if_true]
  split
  · next heq => rw [hdrop] at heq; cases heq
  · next d' rest3' heq =>
    rw [hdrop] at heq
    injection heq with h1 h2
    subst h1; subst h2
    simp only [hd, Bool.false_eq_true, if_false]

theorem spec_nil (cur : Str) : specSplitSentence cur [] = [cur.reverse] := by
  rw [specSplitSentence.eq_def]

theorem spec_cons_split (cur : Str) {c : Char} {rest : Str}
    (h : (isSentPunct c && specBoundary rest) = true) :
    specSplitSentence cur (c :: rest) =
      (c :: cur).reverse :: specSplitSentence [] (rest.dropWhile isPySpace) := by
  rw [specSplitSentence.eq_def]
  simp only [h, if_true]

theorem spec_cons_keep (cur : Str) {c : Char} {rest : Str}
    (h : ¬(isSentPunct c && specBoundary rest) = true) :
    specSplitSentence cur (c :: rest) = specSplitSentence (c :: cur) rest := by
  rw [specSplitSentence.eq_def]
  simp only [Bool.not_eq_true] at h
  simp only [h, Bool.false_eq_true, if_false]

theorem spec_ws_run : ∀ (run : Str), (∀ x ∈ run, isPySpace x = true) →
    ∀ (cur t : Str),
      specSplitSentence cur (run ++ t) = specSplitSentence (run.reverse ++ cur) t := by
  intro run
  induction run with
  | nil => intro _ cur t; simp
  | cons w run' ih =>
    intro hws cur t
    have hw : isPySpace w = true := hws w (by simp)
    have hpunct : isSentPunct w = false := by
      by_contra hq
      simp only [Bool.not_eq_false] at hq
      have h2 := punct_not_space hq
      rw [hw] at h2; cases h2
    rw [List.cons_append, spec_cons_keep _ (by simp [hpunct])]
    rw [ih (fun x hx => hws x (by simp [hx])) (w :: cur) t]
    simp [List.append_assoc]

theorem spec_eq_scan : ∀ (n : Nat) (l : Str) (c : Char) (cur : Str), l.length ≤ n →
    specSplitSentence cur (c :: l) = sentGo (some c) (c :: cur) l := by
  intro n
  induction n with
  | zero =>
    intro l c cur hl
    have hl0 : l = [] := List.length_eq_zero.mp (Nat.le_zero.mp hl)
    subst hl0
    rw [spec_cons_keep _ (by simp [specBoundary]), spec_nil, sentGo_nil]
  | succ n ih =>
    intro l c cur hl
    cases l with
    | nil => rw [spec_cons_keep _ (by simp [specBoundary]), spec_nil, sentGo_nil]
    | cons e rest =>
      have hrest : rest.length ≤ n := by
        simp only [List.length_cons] at hl; omega
      by_cases hsplit : (isSentPunct c && specBoundary (e :: rest)) = true
      · -- the spec splits here; the scanner matches one step later
        have hc : isSentPunct c = true := (band_elim hsplit).1
        have hb : specBoundary (e :: rest) = true := (band_elim hsplit).2
        have he : isPySpace e = true := by
          by_contra hne
          simp only [Bool.not_eq_true] at hne
          simp [specBoundary, List.dropWhile_cons, List.takeWhile_cons, hne] at hb
        cases hdrop : rest.dropWhile isPySpace with
        | nil =>
          exfalso
          simp [specBoundary, List.dropWhile_cons, he, hdrop] at hb
        | cons d rest3 =>
          have hd : isUpperDigit d = true := by
            have hb2 := hb
            simp only [specBoundary, List.dropWhile_cons, he, if_true, hdrop] at hb2
            exact (band_elim hb2).2
          have hdlen : rest3.length ≤ n := by
            have h1 := length_dropWhile_le isPySpace rest
            rw [hdrop] at h1
            simp only [List.length_cons] at h1
            omega
          rw [spec_cons_split _ hsplit,
              sentGo_cons_match c (c :: cur) e rest d rest3 hc he hdrop hd]
          have hdw : (e :: rest).dropWhile isPySpace = d :: rest3 := by
            simp [List.dropWhile_cons, he, hdrop]
          rw [hdw]
          congr 1
          rw [ih rest3 d [] hdlen]
      · -- no spec split at `c`
        rw [spec_cons_keep _ hsplit]
        by_cases htrig : (isSentPunct c && isPySpace e) = true
        · -- the scanner sees a whitespace run that fails the lookahead
          have hc : isSentPunct c = true := (band_elim htrig).1
          have he : isPySpace e = true := (band_elim htrig).2
          cases hdrop : rest.dropWhile isPySpace with
          | nil =>
            -- everything from `e` on is whitespace
            have hallrest : ∀ x ∈ rest, isPySpace x = true :=
              List.dropWhile_eq_nil_iff.mp hdrop
            have hall : ∀ x ∈ e :: rest, isPySpace x = true := by
              intro x hx
              rcases List.mem_cons.mp hx with h | h
              · subst h; exact he
              · exact hallrest x h
            have htk : rest.takeWhile isPySpace = rest := by
              have h2 := List.takeWhile_append_dropWhile isPySpace rest
              rw [hdrop, List.append_nil] at h2
              exact h2
            rw [sentGo_cons_end c (c :: cur) e rest hc he hdrop, htk]
            have h3 := spec_ws_run (e :: rest) hall (c :: cur) []
            rw [List.append_nil] at h3
            rw [h3, spec_nil]
            simp
          | cons d rest3 =>
            have hd : isUpperDigit d = false := by
              by_contra hq
              simp only [Bool.not_eq_false] at hq
              have : specBoundary (e :: rest) = true := by
                simp [specBoundary, List.dropWhile_cons, he, hdrop, hq,
                      List.takeWhile_cons]
              simp [hc, this] at hsplit
            have hdlen : rest3.length ≤ n := by
              have h1 := length_dropWhile_le isPySpace rest
              rw [hdrop] at h1
              simp only [List.length_cons] at h1
              omega
            have hdecomp : e :: rest = (e :: rest.takeWhile isPySpace) ++ d :: rest3 := by
              have h2 := List.takeWhile_append_dropWhile isPySpace rest
              rw [hdrop] at h2
              simpa using congrArg (e :: ·) h2.symm
            have hallws : ∀ x ∈ e :: rest.takeWhile isPySpace, isPySpace x = true := by
              intro x hx
              rcases List.mem_cons.mp hx with h | h
              · subst h; exact he
              · exact List.mem_takeWhile_imp h
            rw [sentGo_cons_nomatch c (c :: cur) e rest d rest3 hc he hdrop hd]
            rw [hdecomp, spec_ws_run _ hallws (c :: cur) (d :: rest3)]
            rw [ih rest3 d _ hdlen]
            simp [List.append_assoc]
        · -- plain character: both sides shift by one
          rw [sentGo_cons_skip (some c) (c :: cur) e rest (by simpa using htrig)]
          exact ih rest e (c :: cur) hrest

theorem sentenceSplit_eq_spec (l : Str) : sentenceSplit l = specSplitSentence [] l := by
  cases l with
  | nil => rw [sentenceSplit, sentGo_nil, spec_nil]
  | cons c rest =>
    rw [sentenceSplit, sentGo_cons_skip none [] c rest (by simp)]
    exact (spec_eq_scan rest.length rest c [] le_rfl).symm

/-! # Chunking lemmas (claims C4 and C9) -/

theorem pyStrip_length_le (l : Str) : (pyStrip l).length ≤ l.length := by
  unfold pyStrip
  have h1 := length_dropWhile_le isPySpace l
  have h2 := length_dropWhile_le isPySpace (l.dropWhile isPySpace).reverse
  simp only [List.length_reverse] at *
  omega

theorem lenSum_nil : lenSum [] = 0 := rfl

theorem lenSum_cons (x : Str) (xs : List Str) :
    lenSum (x :: xs) = x.length + 1 + lenSum xs := rfl

theorem lenSum_append (a b : List Str) : lenSum (a ++ b) = lenSum a + lenSum b := by
  induction a with
  | nil => simp [lenSum_nil, lenSum]
  | cons x xs ih => simp only [List.cons_append, lenSum_cons, ih]; omega

theorem joinWith_length (sep : Char) : ∀ (g : List Str), g ≠ [] →
    (joinWith sep g).length + 1 = lenSum g
  | [x], _ => by simp [joinWith, lenSum_cons, lenSum_nil]
  | x :: y :: rest, _ => by
    have ih := joinWith_length sep (y :: rest) (by simp)
    simp only [joinWith, List.length_append, List.length_cons, lenSum_cons] at *
    omega

theorem dropWhile_eq_self_of_head {α : Type} (p : α → Bool) (l : List α)
    (h : ∀ c, l.head? = some c → p c = false) : l.dropWhile p = l := by
  cases l with
  | nil => rfl
  | cons c rest =>
    have h2 := h c rfl
    simp [List.dropWhile_cons, h2]

theorem dropWhile_length_eq {α : Type} (p : α → Bool) (l : List α)
    (h : (l.dropWhile p).length = l.length) : l.dropWhile p = l := by
  cases l with
  | nil => rfl
  | cons c rest =>
    by_cases hp : p c
    · exfalso
      rw [List.dropWhile_cons_of_pos hp] at h
      have := length_dropWhile_le p rest
      simp only [List.length_cons] at h
      omega
    · rw [List.dropWhile_cons_of_neg hp]

theorem pyStrip_eq_self {l : Str}
    (h1 : ∀ c, l.head? = some c → isPySpace c = false)
    (h2 : ∀ c, l.getLast? = some c → isPySpace c = false) : pyStrip l = l := by
  unfold pyStrip
  rw [dropWhile_eq_self_of_head _ _ h1]
  rw [dropWhile_eq_self_of_head _ _
    (by intro c hc; exact h2 c (by rwa [List.head?_reverse] at hc))]
  exact List.reverse_reverse l

theorem strip_head_not_space {s : Str} (hs : pyStrip s = s) :
    ∀ c, s.head? = some c → isPySpace c = false := by
  intro c hc
  by_contra hq
  simp only [Bool.not_eq_false] at hq
  cases s with
  | nil => cases hc
  | cons c' t =>
    have hcc : c' = c := by simpa using hc
    subst hcc
    have hlen : (pyStrip (c' :: t)).length ≤ t.length := by
      unfold pyStrip
      rw [List.dropWhile_cons_of_pos hq]
      have h2 := length_dropWhile_le isPySpace t
      have h3 := length_dropWhile_le isPySpace (t.dropWhile isPySpace).reverse
      simp only [List.length_reverse] at *
      omega
    rw [hs] at hlen
    simp only [List.length_cons] at hlen
    omega

theorem strip_dropWhile_eq_self {s : Str} (hs : pyStrip s = s) :
    s.dropWhile isPySpace = s := by
  apply dropWhile_length_eq
  have h2 := length_dropWhile_le isPySpace (s.dropWhile isPySpace).reverse
  have h3 := length_dropWhile_le isPySpace s
  have h4 : (pyStrip s).length = s.length := by rw [hs]
  unfold pyStrip at h4
  simp only [List.length_reverse] at *
  omega

theorem strip_getLast_not_space {s : Str} (hs : pyStrip s = s) :
    ∀ c, s.getLast? = some c → isPySpace c = false := by
  have hrev : s.reverse.dropWhile isPySpace = s.reverse := by
    have h1 : pyStrip s = (s.reverse.dropWhile isPySpace).reverse := by
      unfold pyStrip
      rw [strip_dropWhile_eq_self hs]
    rw [hs] at h1
    have h2 := congrArg List.reverse h1
    simpa using h2.symm
  intro c hc
  by_contra hq
  simp only [Bool.not_eq_false] at hq
  have hhead : s.reverse.head? = some c := by rw [List.head?_reverse]; exact hc
  cases hsr : s.reverse with
  | nil => rw [hsr] at hhead; cases hhead
  | cons c' t =>
    rw [hsr] at hhead
    have hcc : c' = c := by simpa using hhead
    subst hcc
    rw [hsr, List.dropWhile_cons_of_pos hq] at hrev
    have := length_dropWhile_le isPySpace t
    have h5 := congrArg List.length hrev
    simp only [List.length_cons] at h5
    omega

theorem joinWith_ne_nil (sep : Char) (x : Str) (gs : List Str) (hx : x ≠ []) :
    joinWith sep (x :: gs) ≠ [] := by
  cases gs with
  | nil => simpa [joinWith] using hx
  | cons y rest => simp [joinWith]

theorem joinWith_head? (sep : Char) (x : Str) (gs : List Str) (hx : x ≠ []) :
    (joinWith sep (x :: gs)).head? = x.head? := by
  cases gs with
  | nil => rfl
  | cons y rest =>
    show (x ++ sep :: joinWith sep (y :: rest)).head? = x.head?
    exact List.head?_append_of_ne_nil x hx

theorem joinWith_getLast? (sep : Char) : ∀ (gs : List Str) (x : Str), x ≠ [] →
    (∀ s ∈ gs, s ≠ []) → (joinWith sep (gs ++ [x])).getLast? = x.getLast? := by
  intro gs
  induction gs with
  | nil => intro x _ _; rfl
  | cons y gs' ih =>
    intro x hx hall
    have hyne : y ≠ [] := hall y (by simp)
    have hjoin : joinWith sep ((y :: gs') ++ [x]) =
        y ++ sep :: joinWith sep (gs' ++ [x]) := by
      cases gs' <;> rfl
    rw [hjoin, List.getLast?_append_of_ne_nil _ (by simp)]
    have hjne : joinWith sep (gs' ++ [x]) ≠ [] := by
      cases gs' with
      | nil => simpa [joinWith] using hx
      | cons z gs'' =>
        exact joinWith_ne_nil sep z (gs'' ++ [x]) (hall z (by simp))
    cases hj : joinWith sep (gs' ++ [x]) with
    | nil => exact absurd hj hjne
    | cons a as =>
      rw [List.getLast?_cons_cons, ← hj]
      exact ih x hx (fun s hs => hall s (by simp [hs]))

theorem pySplit_ne_nil (sep : Char) : ∀ (l : Str), pySplit sep l ≠ []
  | [] => by simp [pySplit]
  | c :: rest => by
    by_cases h : c = sep
    · simp [pySplit, h]
    · have := pySplit_ne_nil sep rest
      simp only [pySplit, h, if_false]
      cases hp : pySplit sep rest with
      | nil => exact absurd hp this
      | cons a as => simp

theorem pySplit_no_sep (sep : Char) : ∀ (l : Str), (∀ c ∈ l, c ≠ sep) →
    pySplit sep l = [l]
  | [], _ => rfl
  | c :: rest, h => by
    have hc : ¬(c = sep) := h c (by simp)
    have ih := pySplit_no_sep sep rest (fun x hx => h x (by simp [hx]))
    simp [pySplit, hc, ih]

theorem pySplit_sep_append (sep : Char) : ∀ (x t : Str), (∀ c ∈ x, c ≠ sep) →
    pySplit sep (x ++ sep :: t) = x :: pySplit sep t
  | [], t, _ => by simp [pySplit]
  | c :: x', t, h => by
    have hc : ¬(c = sep) := h c (by simp)
    have ih := pySplit_sep_append sep x' t (fun ch hch => h ch (by simp [hch]))
    simp only [List.cons_append, pySplit, hc, if_false, List.append_eq, ih]

theorem pySplit_joinWith : ∀ (g : List Str), g ≠ [] → (∀ s ∈ g, '\n' ∉ s) →
    pySplit '\n' (joinWith '\n' g) = g
  | [], h, _ => absurd rfl h
  | [x], _, hg => by
    simp only [joinWith]
    exact pySplit_no_sep '\n' x (fun c hc heq => hg x (by simp) (heq ▸ hc))
  | x :: y :: rest, _, hg => by
    show pySplit '\n' (x ++ '\n' :: joinWith '\n' (y :: rest)) = x :: y :: rest
    rw [pySplit_sep_append '\n' x _ (fun c hc heq => hg x (by simp) (heq ▸ hc))]
    rw [pySplit_joinWith (y :: rest) (by simp) (fun s hs => hg s (by simp [hs]))]

theorem group_roundtrip (g : List Str) (hne : g ≠ [])
    (hgood : ∀ s ∈ g, s ≠ [] ∧ pyStrip s = s ∧ '\n' ∉ s) :
    pySplit '\n' (pyStrip (joinWith '\n' g)) = g := by
  have hstrip : pyStrip (joinWith '\n' g) = joinWith '\n' g := by
    apply pyStrip_eq_self
    · intro c hc
      cases g with
      | nil => exact absurd rfl hne
      | cons x gs =>
        have hx := hgood x (by simp)
        rw [joinWith_head? '\n' x gs hx.1] at hc
        exact strip_head_not_space hx.2.1 c hc
    · intro c hc
      rcases List.eq_nil_or_concat g with rfl | ⟨gs, x, rfl⟩
      · exact absurd rfl hne
      · simp only [List.concat_eq_append] at hc hgood
        have hx := hgood x (by simp)
        rw [joinWith_getLast? '\n' gs x hx.1
          (fun s hs => (hgood s (by simp [hs])).1)] at hc
        exact strip_getLast_not_space hx.2.1 c hc
  rw [hstrip]
  exact pySplit_joinWith g hne (fun s hs => (hgood s hs).2.2)

theorem chunkAux_flatten (t m : Nat) : ∀ (ss current : List Str) (clen : Nat),
    (∀ s ∈ current ++ ss, s ≠ [] ∧ pyStrip s = s ∧ '\n' ∉ s) →
    ((chunkAux t m ss current clen).map (pySplit '\n')).flatten = current ++ ss := by
  intro ss
  induction ss with
  | nil =>
    intro current clen hgood
    by_cases hemp : current.isEmpty
    · have h0 : current = [] := by simpa using hemp
      subst h0
      simp [chunkAux]
    · have hne : current ≠ [] := by simpa using hemp
      simp only [chunkAux, hemp, Bool.false_eq_true, if_false, List.map_cons,
        List.map_nil, List.flatten, List.append_nil]
      rw [group_roundtrip current hne (fun s hs => hgood s (by simpa using hs))]
  | cons s rest ih =>
    intro current clen hgood
    have hgs : s ≠ [] ∧ pyStrip s = s ∧ '\n' ∉ s := hgood s (by simp)
    have hgcur : ∀ x ∈ current, x ≠ [] ∧ pyStrip x = x ∧ '\n' ∉ x :=
      fun x hx => hgood x (by simp [hx])
    have hgrest : ∀ x ∈ rest, x ≠ [] ∧ pyStrip x = x ∧ '\n' ∉ x :=
      fun x hx => hgood x (by simp [hx])
    by_cases hflush : (!current.isEmpty && decide (m < clen + s.length + 1)) = true
    · have hne : current ≠ [] := by
        have := (band_elim hflush).1
        simpa using this
      by_cases htarget : t ≤ s.length + 1
      · simp only [chunkAux, hflush, if_true, htarget, List.map_cons, List.flatten_cons]
        rw [group_roundtrip current hne hgcur,
            group_roundtrip [s] (by simp) (by simpa using hgs),
            ih [] 0 (by simpa using hgrest)]
        simp
      · simp only [chunkAux, hflush, if_true, htarget, if_false, List.map_cons,
          List.flatten_cons]
        rw [group_roundtrip current hne hgcur,
            ih [s] (s.length + 1) (by
              intro x hx
              rcases List.mem_append.mp hx with hx | hx
              · simp at hx; subst hx; exact hgs
              · exact hgrest x hx)]
        simp
    · by_cases htarget : t ≤ clen + s.length + 1
      · simp only [chunkAux, hflush, Bool.false_eq_true, if_false, htarget, if_true,
          List.map_cons, List.flatten_cons]
        rw [group_roundtrip (current ++ [s]) (by simp) (by
              intro x hx
              rcases List.mem_append.mp hx with hx | hx
              · exact hgcur x hx
              · simp at hx; subst hx; exact hgs),
            ih [] 0 (by simpa using hgrest)]
        simp
      · simp only [chunkAux, hflush, Bool.false_eq_true, if_false, htarget]
        rw [ih (current ++ [s]) (clen + s.length + 1) (by
              intro x hx
              rcases List.mem_append.mp hx with hx | hx
              · rcases List.mem_append.mp hx with hx | hx
                · exact hgcur x hx
                · simp at hx; subst hx; exact hgs
              · exact hgrest x hx)]
        simp

theorem chunkAux_bound : ∀ (ss current : List Str) (clen : Nat),
    clen = lenSum current → (current ≠ [] → clen < 2000) →
    ∀ c ∈ chunkAux 2000 3600 ss current clen,
      c.length ≤ 3600 ∨ ∃ s ∈ current ++ ss, c = pyStrip s ∧ 3600 < s.length := by
  intro ss
  induction ss with
  | nil =>
    intro current clen hlen hinv c hc
    by_cases hemp : current.isEmpty
    · simp [chunkAux, hemp] at hc
    · have hne : current ≠ [] := by simpa using hemp
      simp only [chunkAux, hemp, Bool.false_eq_true, if_false, List.mem_singleton] at hc
      subst hc
      left
      have h1 := joinWith_length '\n' current hne
      have h2 := pyStrip_length_le (joinWith '\n' current)
      have h3 := hinv hne
      omega
  | cons s rest ih =>
    intro current clen hlen hinv c hc
    by_cases hflush : (!current.isEmpty && decide (3600 < clen + s.length + 1)) = true
    · have hne : current ≠ [] := by
        have := (band_elim hflush).1
        simpa using this
      have hclen : clen < 2000 := hinv hne
      by_cases htarget : 2000 ≤ s.length + 1
      · simp only [chunkAux, hflush, if_true, htarget, List.mem_cons] at hc
        rcases hc with hc | hc | hc
        · left
          subst hc
          have h1 := joinWith_length '\n' current hne
          have h2 := pyStrip_length_le (joinWith '\n' current)
          omega
        · subst hc
          by_cases hbig : (pyStrip (joinWith '\n' [s])).length ≤ 3600
          · left; exact hbig
          · right
            refine ⟨s, by simp, ?_, ?_⟩
            · simp [joinWith]
            · have h2 := pyStrip_length_le (joinWith '\n' [s])
              simp only [joinWith] at h2 hbig
              omega
        · rcases ih [] 0 rfl (by intro h; exact absurd rfl h) c hc with h | ⟨s', hs', he⟩
          · left; exact h
          · right
            exact ⟨s', by simp at hs'; simp [hs'], he⟩
      · simp only [chunkAux, hflush, if_true, htarget, if_false, List.mem_cons] at hc
        rcases hc with hc | hc
        · left
          subst hc
          have h1 := joinWith_length '\n' current hne
          have h2 := pyStrip_length_le (joinWith '\n' current)
          omega
        · rcases ih [s] (s.length + 1) (by simp [lenSum_cons, lenSum_nil])
              (fun _ => by omega) c hc with h | ⟨s', hs', he⟩
          · left; exact h
          · right
            refine ⟨s', ?_, he⟩
            rcases List.mem_append.mp hs' with h | h
            · simp at h; simp [h]
            · simp [h]
    · by_cases htarget : 2000 ≤ clen + s.length + 1
      · simp only [chunkAux, hflush, Bool.false_eq_true, if_false, htarget, if_true,
          List.mem_cons] at hc
        rcases hc with hc | hc
        · subst hc
          by_cases hcur : current.isEmpty
          · have h0 : current = [] := by simpa using hcur
            subst h0
            by_cases hbig : (pyStrip (joinWith '\n' ([] ++ [s]))).length ≤ 3600
            · left; exact hbig
            · right
              refine ⟨s, by simp, ?_, ?_⟩
              · simp [joinWith]
              · have h2 := pyStrip_length_le (joinWith '\n' [s])
                simp only [joinWith] at h2
                simp only [List.nil_append, joinWith] at hbig
                omega
          · have hne : current ≠ [] := by simpa using hcur
            left
            have hmax : ¬(3600 < clen + s.length + 1) := by
              have : ¬(!current.isEmpty && decide (3600 < clen + s.length + 1)) = true :=
                hflush
              simpa [hcur] using this
            have h1 := joinWith_length '\n' (current ++ [s]) (by simp)
            have h2 := pyStrip_length_le (joinWith '\n' (current ++ [s]))
            rw [lenSum_append] at h1
            simp only [lenSum_cons, lenSum_nil] at h1
            omega
        · rcases ih [] 0 rfl (by intro h; exact absurd rfl h) c hc with h | ⟨s', hs', he⟩
          · left; exact h
          · right
            exact ⟨s', by simp at hs'; simp [hs'], he⟩
      · simp only [chunkAux, hflush, Bool.false_eq_true, if_false, htarget] at hc
        rcases ih (current ++ [s]) (clen + s.length + 1)
            (by rw [lenSum_append]; simp [lenSum_cons, lenSum_nil]; omega)
            (fun _ => by omega) c hc with h | ⟨s', hs', he⟩
        · left; exact h
        · right
          refine ⟨s', ?_, he⟩
          rcases List.mem_append.mp hs' with h | h
          · rcases List.mem_append.mp h with h | h
            · simp [h]
            · simp at h; simp [h]
          · simp [h]

/-! # Cell-splitting lemmas (claims C6 and C10) -/

theorem getLast?_dropWhile {α : Type} (p : α → Bool) (l : List α)
    (h : l.dropWhile p ≠ []) : (l.dropWhile p).getLast? = l.getLast? := by
  induction l with
  | nil => simp at h
  | cons c rest ih =>
    by_cases hp : p c
    · rw [List.dropWhile_cons_of_pos hp] at h ⊢
      rw [ih h]
      have hrne : rest ≠ [] := by
        intro h0; subst h0; simp [List.dropWhile] at h
      cases rest with
      | nil => exact absurd rfl hrne
      | cons d ds => rw [List.getLast?_cons_cons]
    · rw [List.dropWhile_cons_of_neg hp]

theorem head_not_space_of_strip (l : Str) :
    ∀ c, (pyStrip l).head? = some c → isPySpace c = false := by
  intro c hc
  unfold pyStrip at hc
  rw [List.head?_reverse] at hc
  have hne : (l.dropWhile isPySpace).reverse.dropWhile isPySpace ≠ [] := by
    intro h0; rw [h0] at hc; cases hc
  rw [getLast?_dropWhile _ _ hne, List.getLast?_reverse] at hc
  have h2 := List.head?_dropWhile_not isPySpace l
  rw [hc] at h2
  exact h2

theorem last_not_space_of_strip (l : Str) :
    ∀ c, (pyStrip l).getLast? = some c → isPySpace c = false := by
  intro c hc
  unfold pyStrip at hc
  rw [List.getLast?_reverse] at hc
  have h2 := List.head?_dropWhile_not isPySpace (l.dropWhile isPySpace).reverse
  rw [hc] at h2
  exact h2

theorem pyStrip_idem (l : Str) : pyStrip (pyStrip l) = pyStrip l :=
  pyStrip_eq_self (head_not_space_of_strip l) (last_not_space_of_strip l)

theorem splitTrim_good (sep : Char) (v : Str) :
    ∀ x ∈ splitTrim sep v, x ≠ [] ∧ pyStrip x = x := by
  intro x hx
  unfold splitTrim at hx
  have h1 := List.of_mem_filter hx
  have h2 := List.mem_of_mem_filter hx
  obtain ⟨y, _, rfl⟩ := List.mem_map.mp h2
  exact ⟨by simpa using h1, pyStrip_idem y⟩

theorem splitTrim_short (sep : Char) (v : Str) (h : v.contains sep = false) :
    (splitTrim sep v).length ≤ 1 := by
  have hns : ∀ c ∈ v, c ≠ sep := by
    intro c hc heq
    subst heq
    have : v.contains c = true := List.elem_iff.mpr hc
    rw [h] at this
    cases this
  unfold splitTrim
  rw [pySplit_no_sep sep v hns]
  calc (List.filter (· ≠ []) ([v].map pyStrip)).length
      ≤ ([v].map pyStrip).length := List.length_filter_le _ _
    _ = 1 := by simp

/-! # `natChars` lemmas (claim C2) -/

theorem digitChar_ne_hash (d : Nat) (hd : d ≤ 9) : digitChar d ≠ '#' := by
  interval_cases d <;> decide

theorem digitChar_toNat (d : Nat) (hd : d ≤ 9) : (digitChar d).toNat = 48 + d := by
  interval_cases d <;> decide

theorem natCharsFuel_ne_hash : ∀ (fuel n : Nat), ∀ c ∈ natCharsFuel fuel n, c ≠ '#' := by
  intro fuel
  induction fuel with
  | zero => intro n c hc; simp [natCharsFuel] at hc
  | succ f ih =>
    intro n c hc
    by_cases h : n < 10
    · simp only [natCharsFuel, h, if_true, List.mem_singleton] at hc
      subst hc
      exact digitChar_ne_hash n (by omega)
    · simp only [natCharsFuel, h, if_false, List.mem_append, List.mem_singleton] at hc
      rcases hc with hc | hc
      · exact ih (n / 10) c hc
      · subst hc; exact digitChar_ne_hash (n % 10) (by omega)

theorem natChars_ne_hash (n : Nat) : ∀ c ∈ natChars n, c ≠ '#' :=
  natCharsFuel_ne_hash (n + 1) n

theorem charsToNat_natCharsFuel : ∀ (fuel n : Nat), n < fuel →
    charsToNat (natCharsFuel fuel n) = n := by
  intro fuel
  induction fuel with
  | zero => intro n h; omega
  | succ f ih =>
    intro n h
    by_cases h10 : n < 10
    · simp only [natCharsFuel, h10, if_true]
      show charsToNat [digitChar n] = n
      unfold charsToNat
      simp [List.foldl, digitChar_toNat n (by omega)]
    · simp only [natCharsFuel, h10, if_false]
      unfold charsToNat
      rw [List.foldl_append]
      have hdiv : n / 10 < f := by
        have h1 : n / 10 < n := Nat.div_lt_self (by omega) (by omega)
        omega
      have hih := ih (n / 10) hdiv
      unfold charsToNat at hih
      rw [hih]
      simp only [List.foldl, digitChar_toNat (n % 10) (by omega)]
      omega

theorem charsToNat_natChars (n : Nat) : charsToNat (natChars n) = n :=
  charsToNat_natCharsFuel (n + 1) n (by omega)

/-- The decimal digits after the last `'#'` of a chunk identifier. -/
def afterLastHash (l : Str) : Str := (l.reverse.takeWhile (· ≠ '#')).reverse

theorem afterLastHash_append (x t : Str) (h : ∀ c ∈ t, c ≠ '#') :
    afterLastHash (x ++ '#' :: t) = t := by
  unfold afterLastHash
  rw [List.reverse_append, List.reverse_cons, List.append_assoc]
  rw [List.takeWhile_append_of_pos (by
    intro a ha
    simpa using h a (List.mem_reverse.mp ha))]
  rw [List.singleton_append, List.takeWhile_cons_of_neg (by simp)]
  simp

theorem rank_of_mkChunkId (doc_id section_id : Str) (rank : Nat) :
    charsToNat (afterLastHash (mkChunkId doc_id section_id rank)) = rank := by
  unfold mkChunkId
  have h1 : doc_id ++ ':' :: ':' :: section_id ++ '#' :: natChars rank =
      (doc_id ++ ':' :: ':' :: section_id) ++ '#' :: natChars rank := by
    simp [List.append_assoc]
  rw [h1, afterLastHash_append _ _ (natChars_ne_hash rank)]
  exact charsToNat_natChars rank

/-! # Chunk-rank lemmas (claim C2) -/

theorem chunksFromTexts_map_rank (doc_id : Str) (hash : Str → Str) (sec : Section)
    (keywords : List Str) : ∀ (texts : List Str) (rank : Nat),
    (chunksFromTexts doc_id hash sec keywords rank texts).map Chunk.rank =
      List.range' rank texts.length := by
  intro texts
  induction texts with
  | nil => intro rank; rfl
  | cons t ts ih =>
    intro rank
    simp [chunksFromTexts, List.range', ih]

theorem chunksFromTexts_length (doc_id : Str) (hash : Str → Str) (sec : Section)
    (keywords : List Str) : ∀ (texts : List Str) (rank : Nat),
    (chunksFromTexts doc_id hash sec keywords rank texts).length = texts.length := by
  intro texts
  induction texts with
  | nil => intro rank; rfl
  | cons t ts ih => intro rank; simp [chunksFromTexts, ih]

theorem chunkLoop_map_rank (doc_id : Str) (hash : Str → Str) (space title : Str) :
    ∀ (sections : List Section) (rank : Nat),
    (chunkLoop doc_id hash space title rank sections).map Chunk.rank =
      List.range' rank (chunkLoop doc_id hash space title rank sections).length := by
  intro sections
  induction sections with
  | nil => intro rank; rfl
  | cons sec rest ih =>
    intro rank
    by_cases hb : pyStrip sec.body_md = []
    · simp only [chunkLoop, hb, if_true]
      exact ih rank
    · simp only [chunkLoop, hb, if_false, List.map_append, List.length_append]
      rw [chunksFromTexts_map_rank, chunksFromTexts_length, ih]
      rw [List.range'_append_1]
      congr 1
      omega

theorem chunksFromTexts_id_rank (doc_id : Str) (hash : Str → Str) (sec : Section)
    (keywords : List Str) : ∀ (texts : List Str) (rank : Nat),
    ∀ c ∈ chunksFromTexts doc_id hash sec keywords rank texts,
      charsToNat (afterLastHash c.chunk_id) = c.rank := by
  intro texts
  induction texts with
  | nil => intro rank c hc; cases hc
  | cons t ts ih =>
    intro rank c hc
    rcases List.mem_cons.mp hc with hc | hc
    · subst hc
      exact rank_of_mkChunkId doc_id sec.id rank
    · exact ih (rank + 1) c hc

theorem chunkLoop_id_rank (doc_id : Str) (hash : Str → Str) (space title : Str) :
    ∀ (sections : List Section) (rank : Nat),
    ∀ c ∈ chunkLoop doc_id hash space title rank sections,
      charsToNat (afterLastHash c.chunk_id) = c.rank := by
  intro sections
  induction sections with
  | nil => intro rank c hc; cases hc
  | cons sec rest ih =>
    intro rank c hc
    by_cases hb : pyStrip sec.body_md = []
    · simp only [chunkLoop, hb, if_true] at hc
      exact ih rank c hc
    · simp only [chunkLoop, hb, if_false, List.mem_append] at hc
      rcases hc with hc | hc
      · exact chunksFromTexts_id_rank doc_id hash sec _ _ rank c hc
      · exact ih _ c hc

theorem chunkLoop_nodup_ids (doc_id : Str) (hash : Str → Str) (space title : Str)
    (sections : List Section) (rank : Nat) :
    ((chunkLoop doc_id hash space title rank sections).map Chunk.chunk_id).Nodup := by
  apply List.Nodup.of_map (fun id => charsToNat (afterLastHash id))
  rw [List.map_map]
  have heq :
      (chunkLoop doc_id hash space title rank sections).map
        ((fun id => charsToNat (afterLastHash id)) ∘ Chunk.chunk_id) =
      (chunkLoop doc_id hash space title rank sections).map Chunk.rank := by
    apply List.map_congr_left
    intro c hc
    exact chunkLoop_id_rank doc_id hash space title sections rank c hc
  rw [heq, chunkLoop_map_rank]
  exact List.nodup_range' _ _

/-! # Claim theorems -/

/-- C1: the claim says the extractor returns columns `["name","tags"]`,
display columns `["Name","Tags"]`, and exactly one body row for the table
with `th` header `["Name","Tags"]` and data row `["Widget","red, blue"]`,
the header row being excluded from the body.  The code produces the claimed
columns and display columns, but when headers come from `th` cells the
header `tr` is never extracted, so `find_all("tr")` re-emits the header row
as a first body row: the body has two rows, not one. -/
theorem c1_header_row_leaks_into_body :
    _extract_table (.elem (cs "table")
      [.elem (cs "tr") [.elem (cs "th") [.text (cs "Name")],
                        .elem (cs "th") [.text (cs "Tags")]],
       .elem (cs "tr") [.elem (cs "td") [.text (cs "Widget")],
                        .elem (cs "td") [.text (cs "red, blue")]]]) =
    { columns := [cs "name", cs "tags"]
      display_columns := [cs "Name", cs "Tags"]
      rows := [[(cs "name", .str (cs "Name")), (cs "tags", .str (cs "Tags"))],
               [(cs "name", .str (cs "Widget")),
                (cs "tags", .vlist [cs "red", cs "blue"])]] } := by decide

/-- C4: every chunk emitted by the grouper has text length at most 3600,
except that a chunk which is (the stripped form of) a single input sentence
longer than 3600 may exceed the bound; such a sentence is emitted alone and
never split. -/
theorem c4_chunk_size_bound (sentences : List Str) :
    ∀ c ∈ chunk_sentences sentences 2000 3600,
      c.length ≤ 3600 ∨ ∃ s ∈ sentences, c = pyStrip s ∧ 3600 < s.length := by
  intro c hc
  have hc' : c ∈ chunkAux 2000 3600 sentences [] 0 := hc
  have h := chunkAux_bound sentences [] 0 rfl (fun h => absurd rfl h) c hc'
  simpa using h

/-- Witness for C4 at a concrete input. -/
theorem c4_witness :
    (cs "a") ∈ chunk_sentences [cs "a"] 2000 3600 ∧
      ((cs "a").length ≤ 3600 ∨
        ∃ s ∈ [cs "a"], cs "a" = pyStrip s ∧ 3600 < s.length) :=
  ⟨by decide, c4_chunk_size_bound [cs "a"] (cs "a") (by decide)⟩

/-- C7: the sentence splitter behaves exactly as the claim words it —
line-by-line processing of the stripped text, blank lines dropped,
bullet/numbered lines kept whole, other lines split exactly at positions
where `.`/`!`/`?` is followed by whitespace and then an uppercase letter or
digit, and kept whole when no such boundary exists. -/
theorem c7_sentence_splitting_as_specified (text : Str) :
    split_into_sentences text = split_into_sentences_spec text := by
  unfold split_into_sentences split_into_sentences_spec
  simp only [sentenceSplit_eq_spec]

/-- C8: for the previous index `{"A":"h1","B":"h2"}` and the new index
`{"A":"h1","C":"h3"}`, the reported changed/new count is 1 (exactly `C`)
and the removed count is 1 (exactly `B`); `A` counts as neither. -/
theorem c8_index_diff_counts :
    changed_chunks [(cs "A", cs "h1"), (cs "B", cs "h2")]
        [(cs "A", cs "h1"), (cs "C", cs "h3")] = 1 ∧
    removed_chunks [(cs "A", cs "h1"), (cs "B", cs "h2")]
        [(cs "A", cs "h1"), (cs "C", cs "h3")] = 1 ∧
    ([(cs "A", cs "h1"), (cs "C", cs "h3")].filter
        (fun p => decide (dictGet [(cs "A", cs "h1"), (cs "B", cs "h2")] p.1 ≠ some p.2)))
      = [(cs "C", cs "h3")] ∧
    (dedupStrs (([(cs "A", cs "h1"), (cs "B", cs "h2")].map Prod.fst).filter
        (fun k => !([(cs "A", cs "h1"), (cs "C", cs "h3")].map Prod.fst).contains k)))
      = [cs "B"] := by decide

/-- C9 counterexample: a single non-empty sentence with no leading or
trailing whitespace but an interior newline (`"a\nb"`) is not reproduced by
splitting the chunks on the newline separator and concatenating. -/
theorem c9_counterexample :
    ¬ (((chunk_sentences [cs "a\nb"] 2000 3600).map (pySplit '\n')).flatten = [cs "a\nb"]) := by
  decide

/-- C9 (amended): for sentences that are non-empty, carry no leading or
trailing whitespace, and contain no newline character, splitting each chunk
on the newline separator and concatenating reproduces the input exactly. -/
theorem c9_amended_roundtrip (sentences : List Str)
    (h : ∀ s ∈ sentences, s ≠ [] ∧ pyStrip s = s ∧ '\n' ∉ s) :
    ((chunk_sentences sentences 2000 3600).map (pySplit '\n')).flatten = sentences := by
  have h2 := chunkAux_flatten 2000 3600 sentences [] 0 (by simpa using h)
  simpa using h2

/-- Witness for the amended C9 at a concrete input. -/
theorem c9_witness :
    (∀ s ∈ [cs "ab", cs "cd"], s ≠ [] ∧ pyStrip s = s ∧ '\n' ∉ s) ∧
      ((chunk_sentences [cs "ab", cs "cd"] 2000 3600).map (pySplit '\n')).flatten =
        [cs "ab", cs "cd"] :=
  ⟨by decide, c9_amended_roundtrip [cs "ab", cs "cd"] (by decide)⟩

/-- C10: the cell post-processor returns either the original string
unchanged, or a list of at least two strings, each non-empty and free of
leading/trailing whitespace. -/
theorem c10_cell_value_shape (value : Str) :
    _maybe_split_list value = .str value ∨
      ∃ parts, _maybe_split_list value = .vlist parts ∧ 2 ≤ parts.length ∧
        ∀ x ∈ parts, x ≠ [] ∧ pyStrip x = x := by
  unfold _maybe_split_list
  split
  · next h1 =>
    right
    refine ⟨splitTrim ';' value, rfl, ?_, splitTrim_good ';' value⟩
    have h2 := (band_elim h1).2
    simp at h2
    omega
  · next h1 =>
    split
    · next h2 =>
      right
      refine ⟨splitTrim ',' value, rfl, ?_, splitTrim_good ',' value⟩
      have h3 := (band_elim h2).2
      simp at h3
      omega
    · next => left; rfl

/-- C6: semicolon splitting takes priority over comma splitting; a value
becomes the list of trimmed non-empty `;`-parts when there are at least
two of them, else the list of trimmed non-empty `,`-parts when there are
at least two of them, else it stays unchanged; a value split by one
delimiter is never re-split by the other. -/
theorem c6_delimiter_priority (value : Str) :
    _maybe_split_list value =
      (if 2 ≤ (splitTrim ';' value).length then CellValue.vlist (splitTrim ';' value)
       else if 2 ≤ (splitTrim ',' value).length then CellValue.vlist (splitTrim ',' value)
       else CellValue.str value) := by
  unfold _maybe_split_list
  have hsemi : (value.contains ';' && decide (1 < (splitTrim ';' value).length)) = true ↔
      2 ≤ (splitTrim ';' value).length := by
    constructor
    · intro h
      have h2 := (band_elim h).2
      simp at h2
      omega
    · intro h
      by_cases hc : value.contains ';'
      · rw [hc]
        simp only [Bool.true_and, decide_eq_true_eq]
        omega
      · have := splitTrim_short ';' value (by simpa using hc)
        omega
  have hcomma : (value.contains ',' && decide (1 < (splitTrim ',' value).length)) = true ↔
      2 ≤ (splitTrim ',' value).length := by
    constructor
    · intro h
      have h2 := (band_elim h).2
      simp at h2
      omega
    · intro h
      by_cases hc : value.contains ','
      · rw [hc]
        simp only [Bool.true_and, decide_eq_true_eq]
        omega
      · have := splitTrim_short ',' value (by simpa using hc)
        omega
  by_cases h1 : 2 ≤ (splitTrim ';' value).length
  · rw [if_pos (hsemi.mpr h1), if_pos h1]
  · rw [if_neg (fun h => h1 (hsemi.mp h)), if_neg h1]
    by_cases h2 : 2 ≤ (splitTrim ',' value).length
    · rw [if_pos (hcomma.mpr h2), if_pos h2]
    · rw [if_neg (fun h => h2 (hcomma.mp h)), if_neg h2]

/-- C2: for every page record, space code and base URL — and any markdown,
sections, table mapping, hash function and import timestamp — the chunk
list produced by `build_document` carries ranks forming exactly the
sequence 0,…,N−1 in emission order across all sections combined, and the
chunk identifiers are pairwise distinct, even when sections share an id. -/
theorem c2_rank_contiguity_and_id_uniqueness (hash : Str → Str) (imported_at : Str)
    (page : Page) (markdown : Str) (sections : List Section)
    (table_mapping : List (Str × List TableData)) (space base_url : Str) :
    (build_document hash imported_at page markdown sections table_mapping
        space base_url).2.1.map Chunk.rank =
      List.range ((build_document hash imported_at page markdown sections
        table_mapping space base_url).2.1.length) ∧
    ((build_document hash imported_at page markdown sections table_mapping
        space base_url).2.1.map Chunk.chunk_id).Nodup := by
  simp only [build_document]
  constructor
  · rw [chunkLoop_map_rank, List.range_eq_range']
  · exact chunkLoop_nodup_ids _ _ _ _ _ _

/-- Concrete pages for the C3 witness: they agree on id, title and
ancestor titles but differ in body, version and links. -/
def c3PageA : Page :=
  { id := some (cs "12345"), title := some (cs "My Page"),
    version := none, ancestors := some [{ title := some (cs "Root") }],
    body := some (cs "<p>old</p>"), links := none }

/-- Second concrete page for the C3 witness. -/
def c3PageB : Page :=
  { id := some (cs "12345"), title := some (cs "My Page"),
    version := some { number := some (cs "7"), whenAt := some (cs "2020-01-01") },
    ancestors := some [{ title := some (cs "Root") }],
    body := some (cs "<p>completely different body</p>"),
    links := some { webui := some (cs "/pages/12345") } }

/-- C3: two page records that agree on page id, title and ancestor titles
(converted with the same space code) receive the same document slug and the
same document identifier, whatever their bodies, versions, links, hash
functions, import timestamps or base URLs. -/
theorem c3_slug_and_id_stability
    (hash1 hash2 : Str → Str) (ia1 ia2 : Str) (p1 p2 : Page) (md1 md2 : Str)
    (secs1 secs2 : List Section) (tm1 tm2 : List (Str × List TableData))
    (space : Str) (bu1 bu2 : Str)
    (hid : p1.id = p2.id) (htitle : p1.title = p2.title)
    (hanc : ancestorTitles p1 = ancestorTitles p2) :
    (build_document hash1 ia1 p1 md1 secs1 tm1 space bu1).1.slug =
      (build_document hash2 ia2 p2 md2 secs2 tm2 space bu2).1.slug ∧
    (build_document hash1 ia1 p1 md1 secs1 tm1 space bu1).1.id =
      (build_document hash2 ia2 p2 md2 secs2 tm2 space bu2).1.id := by
  have hslug : docSlug p1 = docSlug p2 := by
    unfold docSlug pageTitle
    rw [hanc, htitle]
  have hpid : pageIdStr p1 = pageIdStr p2 := by
    unfold pageIdStr
    rw [hid]
  have hdid : docId space p1 = docId space p2 := by
    unfold docId
    rw [hslug, hpid]
  constructor
  · simp only [build_document]
    exact hslug
  · simp only [build_document]
    exact hdid

/-- Witness for C3: the two concrete pages yield identical slug and id. -/
theorem c3_witness :
    (build_document (fun _ => []) [] c3PageA [] [] [] (cs "SUP") []).1.slug =
      (build_document (fun _ => []) [] c3PageB [] [] [] (cs "SUP") []).1.slug ∧
    (build_document (fun _ => []) [] c3PageA [] [] [] (cs "SUP") []).1.id =
      (build_document (fun _ => []) [] c3PageB [] [] [] (cs "SUP") []).1.id :=
  c3_slug_and_id_stability (fun _ => []) (fun _ => []) [] [] c3PageA c3PageB
    [] [] [] [] [] [] (cs "SUP") [] [] rfl rfl rfl

/-- C5: a page whose `body.storage.value` is missing or the empty string
converts without error to a document with exactly one section — id
`overview`, title `Overview`, empty body — an empty chunk list and an empty
chunk-hash index.  The HTML parser and Markdown renderer are external
collaborators, constrained here only at the empty input, as the spec pins
them (§4.1 "Empty input yields an empty tree", §4.2/§4.3 data flow). -/
theorem c5_empty_body_one_overview_section (parse : Str → List Node)
    (render : List Node → Str) (hash : Str → Str) (imported_at : Str)
    (page : Page) (space base_url : Str)
    (hbody : page.body = none ∨ page.body = some [])
    (hparse : parse [] = []) (hrender : render [] = []) :
    (convert_page parse render hash imported_at page space base_url).1.sections =
        [{ id := cs "overview", title := cs "Overview", body_md := [],
           anchors := [cs "overview"], table_json := none }] ∧
      (convert_page parse render hash imported_at page space base_url).1.chunks = [] ∧
      (convert_page parse render hash imported_at page space base_url).2.1 = [] ∧
      (convert_page parse render hash imported_at page space base_url).2.2 = [] := by
  have hb : page.body.getD [] = [] := by rcases hbody with h | h <;> simp [h]
  simp only [convert_page, hb, hparse]
  rw [show _clean_html [] = [] from rfl, hrender]
  refine ⟨rfl, rfl, rfl, rfl⟩

/-- Concrete page for the C5 witness. -/
def c5Page : Page :=
  { id := some (cs "99"), title := some (cs "Empty"), version := none,
    ancestors := none, body := some [], links := none }

/-- Witness for C5 at a concrete page, parser and renderer. -/
theorem c5_witness :
    (convert_page (fun _ => []) (fun _ => []) (fun _ => []) [] c5Page
        (cs "SUP") []).1.sections =
        [{ id := cs "overview", title := cs "Overview", body_md := [],
           anchors := [cs "overview"], table_json := none }] ∧
      (convert_page (fun _ => []) (fun _ => []) (fun _ => []) [] c5Page
        (cs "SUP") []).1.chunks = [] ∧
      (convert_page (fun _ => []) (fun _ => []) (fun _ => []) [] c5Page
        (cs "SUP") []).2.1 = [] ∧
      (convert_page (fun _ => []) (fun _ => []) (fun _ => []) [] c5Page
        (cs "SUP") []).2.2 = [] :=
  c5_empty_body_one_overview_section (fun _ => []) (fun _ => []) (fun _ => [])
    [] c5Page (cs "SUP") [] (Or.inr rfl) rfl rfl
